import Mathlib

/-!
Shallow embedding of `src/src/ReadonlyNonEmptyArray.ts` (fp-ts v3 style module).

A `ReadonlyNonEmptyArray<A>` is a readonly array with the type-level guarantee
that index 0 exists; we embed it as `List A` together with `≠ []` hypotheses
where the TypeScript type demands non-emptiness.

Conventions mirrored from the source:
* fp-ts v3 descriptors are curried data-last: `E.equals(second)(first)`,
  `S.concat(second)(first)`, `O.compare(second)(first)`.  We embed an `Eq`
  descriptor as `E : α → α → Bool` with `E x y` standing for
  `E.equals(x)(y)`, a `Semigroup` as an uncurried `concat : σ → σ → σ` with
  `concat first second` standing for `S.concat(second)(first)`, and an `Ord`
  as `cmp : α → α → Ordering` with `cmp first second` standing for
  `O.compare(second)(first)` (so `cmp a b = .lt` means `a` sorts before `b`).
* JavaScript array indices are IEEE numbers that may be negative; the index
  arguments of `modifyAt`/`splitAt`/`chunksOf` are embedded as `Int`.
* `Array.prototype.sort` is required by ECMAScript to be a stable sort of the
  comparator order; it is embedded with `List.mergeSort`, a stable sort.
-/

namespace RNEA

/-- Source `concatW(second)(first)`: `first.concat(second)`. -/
def concatW (second : List α) (first : List α) : List α :=
  first ++ second

/-- Source `altW(second)`: `concatW(second())`. -/
def altW (second : Unit → List α) : List α → List α :=
  concatW (second ())

/-- Source `of`: `(a) => [a]`. -/
def of (a : α) : List α := [a]

/-- The loop of source `chainWithIndex`, carrying the running index `i`:
`out.push(...f(i, as[i]))` for each remaining element. -/
def chainWithIndexGo (f : Nat → α → List β) : Nat → List α → List β
  | _, [] => []
  | i, a :: t => f i a ++ chainWithIndexGo f (i + 1) t

/-- Source `chainWithIndex(f)`: starts from `f(0, head(as))` and appends
`f(i, as[i])` for `i = 1 .. length - 1`. -/
def chainWithIndex (f : Nat → α → List β) (as : List α) : List β :=
  chainWithIndexGo f 0 as

/-- Source `chain`: `(f) => chainWithIndex((_, a) => f(a))`. -/
def chain (f : α → List β) : List α → List β :=
  chainWithIndex fun _ a => f a

/-- Source `foldMap(S)(f)`: `fa.slice(1).reduce((s, a) => S.concat(f(a))(s), f(fa[0]))`,
i.e. a left fold of the tail with `f` of the head as the seed. -/
def foldMap (concat : σ → σ → σ) (f : α → σ) : (fa : List α) → fa ≠ [] → σ
  | a :: t, _ => t.foldl (fun s x => concat s (f x)) (f a)
  | [], h => (h rfl).elim

/-- Source `concatAll(S)`: `fa.reduce((a, acc) => S.concat(acc)(a))`, a left
fold of the whole array through `concat`, seeded with the first element. -/
def concatAll (concat : α → α → α) : (fa : List α) → fa ≠ [] → α
  | a :: t, _ => t.foldl (fun acc cur => concat acc cur) a
  | [], h => (h rfl).elim

/-- Spec-side description for C6: the left-associated combination
`(...((s ⊕ x1) ⊕ x2) ... ⊕ xn)` of a seed with a list, strictly left to right. -/
def leftAssoc (concat : σ → σ → σ) : σ → List σ → σ
  | s, [] => s
  | s, x :: xs => leftAssoc concat (concat s x) xs

/-- Source `chop(f)`: applies `f` to the input, keeps the produced value, and
loops on the remainder while it is non-empty.  The source's `while` loop is
total exactly under the precondition `hf` that the remainder shrinks, which is
the hypothesis this embedding takes. -/
def chop (f : List α → β × List α)
    (hf : ∀ as : List α, as ≠ [] → ((f as).2).length < as.length) :
    List α → List β
  | [] => []
  | a :: t =>
    have : ((f (a :: t)).2).length < (a :: t).length := hf (a :: t) (by simp)
    (f (a :: t)).1 :: chop f hf (f (a :: t)).2
termination_by as => as.length

/-- Fuel-indexed transcription of the `chop` while-loop exactly as written in
the source, with no termination precondition: `none` means the loop did not
finish within `fuel` iterations. -/
def chopLoop (f : List α → β × List α) : Nat → List α → Option (List β)
  | _, [] => some []
  | 0, _ :: _ => none
  | fuel + 1, a :: t =>
    (chopLoop f fuel ((f (a :: t)).2)).map ((f (a :: t)).1 :: ·)

/-- Spec-side description for C1: the remainder left after `k` successive
applications of the step function `f`. -/
def chopRest (f : List α → β × List α) : Nat → List α → List α
  | 0, as => as
  | k + 1, as => chopRest f k ((f as).2)

/-- The step function `chop` is called with in source `group`: collect the
head plus the longest prefix of the tail whose elements `E`-equal the head
(`E.equals(h)(a)` is embedded as `E h a`), and return the rest. -/
def groupStep (E : α → α → Bool) : List α → List α × List α
  | [] => ([], [])
  | h :: t => (h :: t.takeWhile (fun a => E h a), t.dropWhile (fun a => E h a))

theorem groupStep_shrink (E : α → α → Bool) :
    ∀ as : List α, as ≠ [] → (((groupStep E) as).2).length < as.length := by
  intro as h
  cases as with
  | nil => exact absurd rfl h
  | cons a t =>
    have hsub := (List.dropWhile_sublist (l := t) (fun x => E a x)).length_le
    simp only [groupStep, List.length_cons]
    omega

/-- Source `group(E)`: `chop` with `groupStep`. -/
def group (E : α → α → Bool) (as : List α) : List (List α) :=
  chop (groupStep E) (groupStep_shrink E) as

/-- Source `splitAt(n)`: if `n < 1 || n > as.length` the pair
`[as, empty]`, otherwise `[prepend(head(as))(as.slice(1, n)), as.slice(n)]`. -/
def splitAt (n : Int) (as : List α) : List α × List α :=
  if n < 1 ∨ (as.length : Int) < n then (as, [])
  else
    match as with
    | [] => ([], [])
    | h :: t => (h :: t.take (n.toNat - 1), (h :: t).drop n.toNat)

theorem splitAt_shrink (n : Int) :
    ∀ as : List α, as ≠ [] → ((splitAt n as).2).length < as.length := by
  intro as h
  cases as with
  | nil => exact absurd rfl h
  | cons a t =>
    rw [splitAt]
    split
    · simp
    · rename_i hc
      push_neg at hc
      show (List.drop n.toNat (a :: t)).length < (a :: t).length
      simp only [List.length_drop, List.length_cons]
      omega

/-- Source `chunksOf(n)`: `chop(splitAt(n))`. -/
def chunksOf (n : Int) (as : List α) : List (List α) :=
  chop (splitAt n) (splitAt_shrink n) as

/-- Source `sort(O)`:
`as.length === 1 ? as : as.slice().sort((first, second) => O.compare(second)(first))`.
The JS comparator returns `cmp first second`, and `Array.prototype.sort` is a
stable ascending sort of that comparator; it is embedded by the stable
`List.mergeSort` with `le a b` meaning the comparator does not put `a` after `b`. -/
def sort (cmp : α → α → Ordering) (as : List α) : List α :=
  if as.length = 1 then as
  else as.mergeSort fun a b => decide (cmp a b ≠ Ordering.gt)

/-- Source `isOutOfBound(i, as)`: `i < 0 || i >= as.length`. -/
def isOutOfBound (i : Int) (as : List α) : Bool :=
  i < 0 || (as.length : Int) ≤ i

/-- Source `modifyAt(i, f)`: `none` when out of bounds; otherwise compute
`next = f(as[i])` and return the input itself when `next === prev`
(embedded as decidable equality), else a copy with slot `i` replaced. -/
def modifyAt [DecidableEq α] (i : Int) (f : α → α) (as : List α) :
    Option (List α) :=
  if h : isOutOfBound i as then none
  else
    let prev := as.get ⟨i.toNat, by simp [isOutOfBound] at h; omega⟩
    let next := f prev
    if next = prev then some as else some (as.set i.toNat next)

/-- Source `zipWith(bs, f)`: combines positionally up to the shorter length. -/
def zipWith (bs : List β) (f : α → β → γ) (as : List α) : List γ :=
  List.zipWith f as bs

/-- Source `zip(bs)`: `zipWith(bs, tuple)`. -/
def zip (bs : List β) (as : List α) : List (α × β) :=
  zipWith bs Prod.mk as

/-- Source `unzip`: collects first components and second components. -/
def unzip (abs : List (α × β)) : List α × List β :=
  (abs.map Prod.fst, abs.map Prod.snd)

/-! ### Generic lemmas about the `chop` recursion scheme -/

theorem chop_ne_nil (f : List α → β × List α)
    (hf : ∀ as : List α, as ≠ [] → ((f as).2).length < as.length)
    (as : List α) (h : as ≠ []) : chop f hf as ≠ [] := by
  cases as with
  | nil => exact absurd rfl h
  | cons a t => rw [chop.eq_2]; simp

theorem chop_head (f : List α → β × List α)
    (hf : ∀ as : List α, as ≠ [] → ((f as).2).length < as.length)
    (as : List α) (h : as ≠ []) :
    (chop f hf as).head? = some ((f as).1) := by
  cases as with
  | nil => exact absurd rfl h
  | cons a t => rw [chop.eq_2]; rfl

theorem chop_eq_chopLoop (f : List α → β × List α)
    (hf : ∀ as : List α, as ≠ [] → ((f as).2).length < as.length) :
    ∀ (fuel : Nat) (as : List α), as.length ≤ fuel →
      chopLoop f fuel as = some (chop f hf as) := by
  intro fuel
  induction fuel with
  | zero =>
    intro as hlen
    have hnil : as = [] := by cases as <;> simp_all
    subst hnil
    simp [chopLoop, chop]
  | succ n ih =>
    intro as hlen
    cases as with
    | nil => simp [chopLoop, chop]
    | cons a t =>
      have hrest := hf (a :: t) (by simp)
      rw [chopLoop, ih ((f (a :: t)).2) (by simp at hrest hlen ⊢; omega),
        chop.eq_2]
      rfl

theorem chop_getElem (f : List α → β × List α)
    (hf : ∀ as : List α, as ≠ [] → ((f as).2).length < as.length) :
    ∀ (as : List α) (k : Nat), k < (chop f hf as).length →
      (chop f hf as)[k]? = some ((f (chopRest f k as)).1) := by
  intro as
  induction as using chop.induct f hf with
  | case1 => simp [chop]
  | case2 a t hlt ih =>
    intro k hk
    rw [chop.eq_2] at hk ⊢
    cases k with
    | zero => simp [chopRest]
    | succ k =>
      simp only [List.getElem?_cons_succ]
      simp only [List.length_cons, Nat.succ_lt_succ_iff] at hk
      rw [ih k hk]
      rfl

theorem chop_flatten (f : List α → List α × List α)
    (hf : ∀ as : List α, as ≠ [] → ((f as).2).length < as.length)
    (hjoin : ∀ as : List α, as ≠ [] → (f as).1 ++ (f as).2 = as) :
    ∀ as : List α, (chop f hf as).flatten = as := by
  intro as
  induction as using chop.induct f hf with
  | case1 => simp [chop]
  | case2 a t hlt ih =>
    rw [chop.eq_2]
    simp only [List.flatten_cons, ih]
    exact hjoin (a :: t) (by simp)

theorem chop_mem (f : List α → β × List α)
    (hf : ∀ as : List α, as ≠ [] → ((f as).2).length < as.length)
    (P : β → Prop)
    (hP : ∀ as : List α, as ≠ [] → P ((f as).1)) :
    ∀ (as : List α), ∀ b ∈ chop f hf as, P b := by
  intro as
  induction as using chop.induct f hf with
  | case1 => simp [chop]
  | case2 a t hlt ih =>
    rw [chop.eq_2]
    rintro b hb
    rcases List.mem_cons.mp hb with rfl | hb
    · exact hP (a :: t) (by simp)
    · exact ih b hb

theorem chop_chain (f : List α → β × List α)
    (hf : ∀ as : List α, as ≠ [] → ((f as).2).length < as.length)
    (R : β → β → Prop)
    (hR : ∀ as : List α, as ≠ [] → (f as).2 ≠ [] → R ((f as).1) ((f ((f as).2)).1)) :
    ∀ as : List α, List.Chain' R (chop f hf as) := by
  intro as
  induction as using chop.induct f hf with
  | case1 => simp [chop]
  | case2 a t hlt ih =>
    rw [chop.eq_2, List.chain'_cons']
    refine ⟨?_, ih⟩
    intro y hy
    by_cases hrest : (f (a :: t)).2 = []
    · rw [hrest] at hy; simp [chop] at hy
    · rw [chop_head f hf _ hrest] at hy
      simp only [Option.mem_def, Option.some_inj] at hy
      subst hy
      exact hR (a :: t) (by simp) hrest

/-! ### Facts about the `group` step function -/

theorem dropWhile_head_false (p : α → Bool) :
    ∀ (t : List α) (r : α) (rt : List α),
      List.dropWhile p t = r :: rt → p r = false := by
  intro t
  induction t with
  | nil => intro r rt hcase; simp [List.dropWhile] at hcase
  | cons a t ih =>
    intro r rt hcase
    rw [List.dropWhile_cons] at hcase
    by_cases hp : p a
    · rw [if_pos hp] at hcase; exact ih r rt hcase
    · rw [if_neg hp] at hcase
      cases hcase
      simpa using hp

theorem groupStep_join (E : α → α → Bool) :
    ∀ as : List α, as ≠ [] → (groupStep E as).1 ++ (groupStep E as).2 = as := by
  intro as h
  cases as with
  | nil => exact absurd rfl h
  | cons a t => simp [groupStep, List.takeWhile_append_dropWhile]

/-- Example step function used by the witness of the `chop` claim: produce the
current head and drop it. -/
def chopStepEx : List Nat → Nat × List Nat :=
  fun as => (as.headI, as.drop 1)

theorem chopStepEx_shrink :
    ∀ as : List Nat, as ≠ [] → ((chopStepEx as).2).length < as.length := by
  intro as h
  cases as <;> simp_all [chopStepEx]

/-- C1: for every step function `f` whose returned remainder is strictly
shorter than its input, and every non-empty `as`, the source `chop` while-loop
terminates (any fuel of at least `as.length` iterations suffices and yields the
value of the total function `chop`), and the result is a non-empty list whose
`k`-th entry is the value produced by the `k`-th successive application of `f`,
in order. -/
theorem chop_total_spec (f : List α → β × List α)
    (hf : ∀ as : List α, as ≠ [] → ((f as).2).length < as.length)
    (as : List α) (h : as ≠ []) (fuel : Nat) (hfuel : as.length ≤ fuel) :
    chopLoop f fuel as = some (chop f hf as)
    ∧ chop f hf as ≠ []
    ∧ ∀ k, k < (chop f hf as).length →
        (chop f hf as)[k]? = some ((f (chopRest f k as)).1) :=
  ⟨chop_eq_chopLoop f hf fuel as hfuel, chop_ne_nil f hf as h,
    fun k hk => chop_getElem f hf as k hk⟩

/-- Witness for C1 at `f = chopStepEx`, `as = [5, 6, 7]`, `fuel = 3`. -/
theorem chop_total_spec_witness :
    (([5, 6, 7] : List Nat) ≠ [] ∧ ([5, 6, 7] : List Nat).length ≤ 3)
    ∧ (chopLoop chopStepEx 3 [5, 6, 7]
          = some (chop chopStepEx chopStepEx_shrink [5, 6, 7])
        ∧ chop chopStepEx chopStepEx_shrink [5, 6, 7] ≠ []
        ∧ ∀ k, k < (chop chopStepEx chopStepEx_shrink [5, 6, 7]).length →
            (chop chopStepEx chopStepEx_shrink [5, 6, 7])[k]? =
              some ((chopStepEx (chopRest chopStepEx k [5, 6, 7])).1)) :=
  ⟨⟨by decide, by decide⟩,
    chop_total_spec chopStepEx chopStepEx_shrink [5, 6, 7] (by decide) 3
      (by decide)⟩

/-- C2: for every reflexive, symmetric, transitive `E` and non-empty `as`,
`group E as` partitions `as` into maximal non-empty runs of adjacent
`E`-equal elements in order: the groups concatenate back to `as`, all elements
within one group are pairwise `E`-equal, the first elements of two consecutive
groups are not `E`-equal, and on numbers `group` maps `[1,2,1,1]` to
`[[1],[2],[1,1]]`. -/
theorem group_spec (E : α → α → Bool)
    (hrefl : ∀ a, E a a = true)
    (hsymm : ∀ a b, E a b = true → E b a = true)
    (htrans : ∀ a b c, E a b = true → E b c = true → E a c = true)
    (as : List α) (h : as ≠ []) :
    (group E as).flatten = as
    ∧ (∀ g ∈ group E as, g ≠ [] ∧ ∀ x ∈ g, ∀ y ∈ g, E x y = true)
    ∧ List.Chain' (fun g₁ g₂ => ∀ x ∈ g₁.head?, ∀ y ∈ g₂.head?, E x y = false)
        (group E as)
    ∧ group (fun a b : Nat => a == b) [1, 2, 1, 1] = [[1], [2], [1, 1]] := by
  refine ⟨chop_flatten _ _ (groupStep_join E) as, ?_, ?_, ?_⟩
  · have hmem := chop_mem (groupStep E) (groupStep_shrink E)
      (fun g => ∃ hd tl, g = hd :: tl ∧ ∀ a ∈ tl, E hd a = true)
      (by
        intro bs hb
        cases bs with
        | nil => exact absurd rfl hb
        | cons b tb =>
          exact ⟨b, tb.takeWhile (fun a => E b a), rfl,
            fun x hx => List.mem_takeWhile_imp hx⟩)
      as
    intro g hg
    obtain ⟨hd, tl, rfl, hall⟩ := hmem g hg
    refine ⟨by simp, ?_⟩
    intro x hx y hy
    rcases List.mem_cons.mp hx with hx1 | hx1
    · rcases List.mem_cons.mp hy with hy1 | hy1
      · rw [hx1, hy1]; exact hrefl hd
      · rw [hx1]; exact hall y hy1
    · rcases List.mem_cons.mp hy with hy1 | hy1
      · rw [hy1]; exact hsymm _ _ (hall x hx1)
      · exact htrans x hd y (hsymm _ _ (hall x hx1)) (hall y hy1)
  · refine chop_chain _ _ _ ?_ as
    intro bs hb hrest
    cases bs with
    | nil => exact absurd rfl hb
    | cons b tb =>
      simp only [groupStep] at hrest ⊢
      intro x hx y hy
      simp only [List.head?_cons, Option.mem_def, Option.some_inj] at hx
      subst hx
      cases hd : List.dropWhile (fun a => E b a) tb with
      | nil => exact absurd hd hrest
      | cons r rt =>
        rw [hd] at hy
        simp only [groupStep, List.head?_cons, Option.mem_def,
          Option.some_inj] at hy
        subst hy
        simpa using dropWhile_head_false (fun a => E b a) tb r rt hd
  · simp [group, chop, groupStep]

/-- Witness for C2 at `E = (· == ·)` on `Bool`, `as = [true, false]`. -/
theorem group_spec_witness :
    ((∀ a : Bool, (a == a) = true)
      ∧ (∀ a b : Bool, (a == b) = true → (b == a) = true)
      ∧ (∀ a b c : Bool, (a == b) = true → (b == c) = true → (a == c) = true)
      ∧ ([true, false] : List Bool) ≠ [])
    ∧ ((group (fun a b : Bool => a == b) [true, false]).flatten = [true, false]
      ∧ (∀ g ∈ group (fun a b : Bool => a == b) [true, false],
          g ≠ [] ∧ ∀ x ∈ g, ∀ y ∈ g, (x == y) = true)
      ∧ List.Chain'
          (fun g₁ g₂ => ∀ x ∈ g₁.head?, ∀ y ∈ g₂.head?, (x == y) = false)
          (group (fun a b : Bool => a == b) [true, false])
      ∧ group (fun a b : Nat => a == b) [1, 2, 1, 1] = [[1], [2], [1, 1]]) :=
  ⟨⟨by decide, by decide, by decide, by decide⟩,
    group_spec (fun a b : Bool => a == b) (by decide) (by decide) (by decide)
      [true, false] (by decide)⟩

/-- C3: for every total order (a comparator `cmp` that is antisymmetric under
`Ordering.swap` and whose induced `≤` is transitive) and every non-empty `as`,
`sort cmp as` is a permutation of `as`, is sorted ascending, is stable
(a pair of `cmp`-equal elements in input order stays in that order), and a
single-element input is returned unchanged. -/
theorem sort_spec (cmp : α → α → Ordering)
    (hswap : ∀ a b, (cmp a b).swap = cmp b a)
    (htrans : ∀ a b c, cmp a b ≠ Ordering.gt → cmp b c ≠ Ordering.gt →
      cmp a c ≠ Ordering.gt)
    (as : List α) (h : as ≠ []) :
    (sort cmp as).Perm as
    ∧ (sort cmp as).Pairwise (fun a b => cmp a b ≠ Ordering.gt)
    ∧ (∀ a b, cmp a b = Ordering.eq → [a, b].Sublist as →
        [a, b].Sublist (sort cmp as))
    ∧ ∀ a : α, sort cmp [a] = [a] := by
  have hle_trans : ∀ a b c : α, decide (cmp a b ≠ Ordering.gt) = true →
      decide (cmp b c ≠ Ordering.gt) = true →
      decide (cmp a c ≠ Ordering.gt) = true := by
    intro a b c hab hbc
    simp only [decide_eq_true_eq] at hab hbc ⊢
    exact htrans a b c hab hbc
  have hle_total : ∀ a b : α,
      (decide (cmp a b ≠ Ordering.gt) || decide (cmp b a ≠ Ordering.gt))
        = true := by
    intro a b
    by_cases hab : cmp a b = Ordering.gt
    · have hs := hswap a b
      rw [hab] at hs
      have hlt : cmp b a = Ordering.lt := by rw [← hs]; rfl
      simp [hlt]
    · simp [hab]
  refine ⟨?_, ?_, ?_, ?_⟩
  · by_cases h1 : as.length = 1
    · simp [sort, h1]
    · simp only [sort, if_neg h1]
      exact List.mergeSort_perm as _
  · by_cases h1 : as.length = 1
    · cases as with
      | nil => simp at h1
      | cons a t =>
        simp only [List.length_cons, Nat.add_left_eq_self] at h1
        have ht : t = [] := List.length_eq_zero.mp h1
        subst ht
        simp [sort]
    · simp only [sort, if_neg h1]
      have hsorted := List.sorted_mergeSort hle_trans hle_total as
      exact hsorted.imp (by intro a b hab; simpa using hab)
  · intro a b heq hsub
    by_cases h1 : as.length = 1
    · have h2 := hsub.length_le
      rw [h1] at h2
      simp at h2
    · simp only [sort, if_neg h1]
      exact List.mergeSort_stable_pair hle_trans hle_total (by simp [heq]) hsub
  · intro a
    simp [sort]

/-- Concrete comparator on `Bool` (with `false` before `true`) used by the
witness of the `sort` claim. -/
def cmpBoolEx (a b : Bool) : Ordering :=
  if a = b then Ordering.eq else if b then Ordering.lt else Ordering.gt

/-- Witness for C3 at `cmp = cmpBoolEx`, `as = [true]`. -/
theorem sort_spec_witness :
    ((∀ a b : Bool, (cmpBoolEx a b).swap = cmpBoolEx b a)
      ∧ (∀ a b c : Bool, cmpBoolEx a b ≠ Ordering.gt →
          cmpBoolEx b c ≠ Ordering.gt → cmpBoolEx a c ≠ Ordering.gt)
      ∧ ([true] : List Bool) ≠ [])
    ∧ ((sort cmpBoolEx [true]).Perm [true]
      ∧ (sort cmpBoolEx [true]).Pairwise
          (fun a b => cmpBoolEx a b ≠ Ordering.gt)
      ∧ (∀ a b, cmpBoolEx a b = Ordering.eq → [a, b].Sublist [true] →
          [a, b].Sublist (sort cmpBoolEx [true]))
      ∧ ∀ a : Bool, sort cmpBoolEx [a] = [a]) :=
  ⟨⟨by decide, by decide, by decide⟩,
    sort_spec cmpBoolEx (by decide) (by decide) [true] (by decide)⟩

/-! ### `modifyAt` -/

theorem modifyAt_out [DecidableEq α] (i : Int) (f : α → α) (as : List α)
    (hob : i < 0 ∨ (as.length : Int) ≤ i) :
    modifyAt i f as = none := by
  rw [modifyAt, dif_pos (by simp [isOutOfBound]; omega)]

theorem modifyAt_in [DecidableEq α] (i : Int) (f : α → α) (as : List α)
    (h0 : 0 ≤ i) (hlt : i.toNat < as.length) :
    modifyAt i f as =
      if f (as.get ⟨i.toNat, hlt⟩) = as.get ⟨i.toNat, hlt⟩ then some as
      else some (as.set i.toNat (f (as.get ⟨i.toNat, hlt⟩))) := by
  rw [modifyAt, dif_neg (by simp [isOutOfBound]; omega)]

/-- C4: `modifyAt i f as` is `none` iff `i < 0` or `i ≥ length as`; otherwise
it is `some` of a non-empty list; when `f` maps the existing element to itself
(in particular for the identity) the very input is returned inside `some`. -/
theorem modifyAt_spec [DecidableEq α] (i : Int) (f : α → α) (as : List α)
    (h : as ≠ []) :
    (modifyAt i f as = none ↔ i < 0 ∨ (as.length : Int) ≤ i)
    ∧ (0 ≤ i → i < (as.length : Int) →
        ∃ out, modifyAt i f as = some out ∧ out ≠ [])
    ∧ (∀ prev, as[i.toNat]? = some prev → 0 ≤ i → f prev = prev →
        modifyAt i f as = some as)
    ∧ (0 ≤ i → i < (as.length : Int) →
        modifyAt i (fun a => a) as = some as) := by
  refine ⟨⟨?_, ?_⟩, ?_, ?_, ?_⟩
  · intro hnone
    by_contra hc
    push_neg at hc
    have hlt : i.toNat < as.length := by omega
    rw [modifyAt_in i f as hc.1 hlt] at hnone
    split at hnone <;> simp at hnone
  · intro hob
    exact modifyAt_out i f as hob
  · intro h0 hlen
    have hlt : i.toNat < as.length := by omega
    rw [modifyAt_in i f as h0 hlt]
    split
    · exact ⟨as, rfl, h⟩
    · refine ⟨_, rfl, fun hset => h ?_⟩
      have hlen0 := congrArg List.length hset
      rw [List.length_set] at hlen0
      exact List.length_eq_zero.mp hlen0
  · intro prev hprev h0 hf
    obtain ⟨hlt, hget⟩ := List.getElem?_eq_some.mp hprev
    rw [modifyAt_in i f as h0 hlt]
    have hc : f (as.get ⟨i.toNat, hlt⟩) = as.get ⟨i.toNat, hlt⟩ := by
      rw [List.get_eq_getElem, hget, hf]
    rw [if_pos hc]
  · intro h0 hlen
    have hlt : i.toNat < as.length := by omega
    rw [modifyAt_in i (fun a => a) as h0 hlt]
    exact if_pos rfl

/-- Witness for C4 at `i = 1`, `f = const 9`, `as = [3, 4]`. -/
theorem modifyAt_spec_witness :
    (([3, 4] : List Nat) ≠ [])
    ∧ ((modifyAt 1 (fun _ => 9) [3, 4] = none ↔
          (1 : Int) < 0 ∨ (([3, 4] : List Nat).length : Int) ≤ 1)
      ∧ ((0 : Int) ≤ 1 → (1 : Int) < (([3, 4] : List Nat).length : Int) →
          ∃ out, modifyAt 1 (fun _ => 9) [3, 4] = some out ∧ out ≠ [])
      ∧ (∀ prev, ([3, 4] : List Nat)[(1 : Int).toNat]? = some prev →
          (0 : Int) ≤ 1 → (fun _ => 9) prev = prev →
          modifyAt 1 (fun _ => 9) [3, 4] = some [3, 4])
      ∧ ((0 : Int) ≤ 1 → (1 : Int) < (([3, 4] : List Nat).length : Int) →
          modifyAt 1 (fun a => a) [3, 4] = some [3, 4])) :=
  ⟨by decide, modifyAt_spec 1 (fun _ => 9) [3, 4] (by decide)⟩

/-- C10: when `modifyAt i f as = some out` with `i` in bounds, `out` has the
same length as `as`, slot `i` holds `f` of the old element, and every other
slot is unchanged. -/
theorem modifyAt_frame [DecidableEq α] (i : Int) (f : α → α) (as out : List α)
    (h : as ≠ []) (h0 : 0 ≤ i) (hlen : i < (as.length : Int))
    (hout : modifyAt i f as = some out) :
    out.length = as.length
    ∧ out[i.toNat]? = (as[i.toNat]?).map f
    ∧ ∀ j : Nat, j ≠ i.toNat → out[j]? = as[j]? := by
  have hlt : i.toNat < as.length := by omega
  rw [modifyAt_in i f as h0 hlt] at hout
  split at hout
  · rename_i heq
    obtain rfl : as = out := Option.some_inj.mp hout
    refine ⟨rfl, ?_, fun j hj => rfl⟩
    rw [List.getElem?_eq_getElem hlt]
    simp only [Option.map_some']
    rw [← List.get_eq_getElem as ⟨i.toNat, hlt⟩, heq]
  · rename_i hne
    obtain rfl : as.set i.toNat (f (as.get ⟨i.toNat, hlt⟩)) = out :=
      Option.some_inj.mp hout
    refine ⟨List.length_set as i.toNat _, ?_, fun j hj => ?_⟩
    · rw [List.getElem?_set]
      simp [hlt, List.getElem?_eq_getElem hlt, List.get_eq_getElem]
    · exact List.getElem?_set_ne (by omega)

/-- Witness for C10 at `i = 1`, `f = const 9`, `as = [3, 4]`, `out = [3, 9]`. -/
theorem modifyAt_frame_witness :
    (([3, 4] : List Nat) ≠ [] ∧ (0 : Int) ≤ 1
      ∧ (1 : Int) < (([3, 4] : List Nat).length : Int)
      ∧ modifyAt 1 (fun _ => 9) [3, 4] = some [3, 9])
    ∧ (([3, 9] : List Nat).length = ([3, 4] : List Nat).length
      ∧ ([3, 9] : List Nat)[(1 : Int).toNat]? =
          (([3, 4] : List Nat)[(1 : Int).toNat]?).map (fun _ => 9)
      ∧ ∀ j : Nat, j ≠ (1 : Int).toNat →
          ([3, 9] : List Nat)[j]? = ([3, 4] : List Nat)[j]?) :=
  ⟨⟨by decide, by decide, by decide, by decide⟩,
    modifyAt_frame 1 (fun _ => 9) [3, 4] [3, 9] (by decide) (by decide)
      (by decide) (by decide)⟩

/-! ### Monad identity laws -/

theorem chainWithIndexGo_of (i : Nat) (as : List α) :
    chainWithIndexGo (fun _ a => of a) i as = as := by
  induction as generalizing i with
  | nil => rfl
  | cons a t ih =>
    simp only [of] at ih ⊢
    simp [chainWithIndexGo, ih]

/-- C5: the Monad identity laws for `of` and `chain`:
`chain of x = x` for every non-empty `x`, and `chain f (of a) = f a` for every
`a` and every `f` producing non-empty results. -/
theorem monad_identity_laws (x : List α) (hx : x ≠ [])
    (a : α) (f : α → List β) (hf : ∀ b, f b ≠ []) :
    chain of x = x ∧ chain f (of a) = f a := by
  constructor
  · exact chainWithIndexGo_of 0 x
  · show chainWithIndexGo (fun _ b => f b) 0 [a] = f a
    simp [chainWithIndexGo]

/-- Witness for C5 at `x = [1]`, `a = 2`, `f = fun b => [b, b]`. -/
theorem monad_identity_laws_witness :
    (([1] : List Nat) ≠ [] ∧ ∀ b : Nat, [b, b] ≠ [])
    ∧ (chain of [1] = [1]
      ∧ chain (fun b : Nat => [b, b]) (of 2) = [2, 2]) :=
  ⟨⟨by decide, fun b => by simp⟩,
    monad_identity_laws [1] (by decide) 2 (fun b => [b, b]) (fun b => by simp)⟩

/-! ### `foldMap` and `concatAll` -/

theorem leftAssoc_eq_foldl (concat : σ → σ → σ) (s : σ) (l : List σ) :
    leftAssoc concat s l = l.foldl concat s := by
  induction l generalizing s with
  | nil => rfl
  | cons x xs ih => simp [leftAssoc, List.foldl_cons, ih]

/-- C6: for an associative combine, `foldMap` is the left-associated,
left-to-right combination of the images, seeded with the image of the first
element, and `concatAll` is `foldMap` of the identity. -/
theorem foldMap_spec (concat : σ → σ → σ)
    (hassoc : ∀ x y z, concat (concat x y) z = concat x (concat y z))
    (f : α → σ) (a : α) (t : List α) (s : σ) (u : List σ) :
    foldMap concat f (a :: t) (List.cons_ne_nil a t)
        = leftAssoc concat (f a) (t.map f)
    ∧ concatAll concat (s :: u) (List.cons_ne_nil s u)
        = foldMap concat id (s :: u) (List.cons_ne_nil s u) := by
  constructor
  · rw [leftAssoc_eq_foldl, List.foldl_map]
    rfl
  · rfl

/-- Witness for C6 at `concat = (+)` on `Nat`, `f = (· * 2)`,
`[a0, ...] = [1, 2, 3]`, `[s, ...] = [4, 5, 6]`. -/
theorem foldMap_spec_witness :
    (∀ x y z : Nat, x + y + z = x + (y + z))
    ∧ (foldMap (fun x y => x + y) (fun n => n * 2) [1, 2, 3]
          (List.cons_ne_nil 1 [2, 3])
        = leftAssoc (fun x y => x + y) ((fun n : Nat => n * 2) 1)
            ([2, 3].map (fun n => n * 2))
      ∧ concatAll (fun x y => x + y) [4, 5, 6] (List.cons_ne_nil 4 [5, 6])
          = foldMap (fun x y => x + y) id [4, 5, 6]
              (List.cons_ne_nil 4 [5, 6])) :=
  ⟨fun x y z => Nat.add_assoc x y z,
    foldMap_spec (fun x y => x + y) (fun x y z => Nat.add_assoc x y z)
      (fun n => n * 2) 1 [2, 3] 4 [5, 6]⟩

/-- C7: `altW` is unconditional concatenation: it appends the supplied
alternative after the first array even though the first is already non-empty,
and the lengths add. -/
theorem alt_spec (second : Unit → List α) (first : List α)
    (h : first ≠ []) (hs : second () ≠ []) :
    altW second first = first ++ second ()
    ∧ (altW second first).length = first.length + (second ()).length := by
  refine ⟨rfl, ?_⟩
  simp [altW, concatW]

/-- Witness for C7 at `first = [1]`, `second = fun _ => [2, 3]`. -/
theorem alt_spec_witness :
    (([1] : List Nat) ≠ [] ∧ (fun _ : Unit => ([2, 3] : List Nat)) () ≠ [])
    ∧ (altW (fun _ => [2, 3]) [1] = [1] ++ (fun _ : Unit => ([2, 3] : List Nat)) ()
      ∧ (altW (fun _ => [2, 3]) ([1] : List Nat)).length
          = ([1] : List Nat).length
            + ((fun _ : Unit => ([2, 3] : List Nat)) ()).length) :=
  ⟨⟨by decide, by decide⟩, alt_spec (fun _ => [2, 3]) [1] (by decide) (by decide)⟩

/-! ### `splitAt` and `chunksOf` on out-of-range `n` -/

theorem splitAt_out (n : Int) (as : List α)
    (hn : n < 1 ∨ (as.length : Int) < n) :
    splitAt n as = (as, []) := by
  rw [splitAt.eq_def, if_pos hn]

/-- C8: for `n < 1` or `n > length as`, `splitAt n` returns the whole input as
the prefix with an empty suffix, and `chunksOf n` degrades to the single chunk
holding the whole input, with no failure. -/
theorem splitAt_chunksOf_degrade (n : Int) (as : List α) (h : as ≠ [])
    (hn : n < 1 ∨ (as.length : Int) < n) :
    splitAt n as = (as, []) ∧ chunksOf n as = [as] := by
  refine ⟨splitAt_out n as hn, ?_⟩
  cases as with
  | nil => exact absurd rfl h
  | cons a t =>
    show chop (splitAt n) (splitAt_shrink n) (a :: t) = [a :: t]
    rw [chop.eq_2, splitAt_out n (a :: t) hn]
    simp [chop]

/-- Witness for C8 at `n = 0`, `as = [1, 2]`. -/
theorem splitAt_chunksOf_degrade_witness :
    (([1, 2] : List Nat) ≠ []
      ∧ ((0 : Int) < 1 ∨ (([1, 2] : List Nat).length : Int) < 0))
    ∧ (splitAt 0 ([1, 2] : List Nat) = ([1, 2], [])
      ∧ chunksOf 0 ([1, 2] : List Nat) = [[1, 2]]) :=
  ⟨⟨by decide, by decide⟩,
    splitAt_chunksOf_degrade 0 [1, 2] (by decide) (by decide)⟩

/-! ### `zip` and `unzip` -/

theorem unzip_zipWith (as : List α) :
    ∀ bs : List β, as.length = bs.length →
      unzip (List.zipWith Prod.mk as bs) = (as, bs) := by
  induction as with
  | nil =>
    intro bs hlen
    have hb : bs = [] := by cases bs <;> simp_all
    subst hb; rfl
  | cons a t ih =>
    intro bs hlen
    cases bs with
    | nil => simp at hlen
    | cons b tb =>
      have hrec := ih tb (by simpa using hlen)
      simp only [List.zipWith_cons_cons, unzip, List.map_cons] at hrec ⊢
      rw [Prod.mk.injEq] at hrec
      simp [hrec.1, hrec.2]

theorem zip_unzip_self (abs : List (α × β)) :
    zip (unzip abs).2 (unzip abs).1 = abs := by
  induction abs with
  | nil => rfl
  | cons p t ih =>
    simp only [unzip, List.map_cons, zip, zipWith, List.zipWith_cons_cons]
      at ih ⊢
    rw [ih]

/-- C9: `unzip` inverts pairing: both components keep the input's length and
`zip` reassembles them to the input; conversely `unzip` after `zip` on two
equal-length non-empty lists recovers the pair. -/
theorem unzip_zip_spec (abs : List (α × β)) (h : abs ≠ []) :
    (unzip abs).1.length = abs.length
    ∧ (unzip abs).2.length = abs.length
    ∧ zip (unzip abs).2 (unzip abs).1 = abs
    ∧ ∀ (as : List α) (bs : List β), as ≠ [] → bs ≠ [] →
        as.length = bs.length → unzip (zip bs as) = (as, bs) := by
  refine ⟨by simp [unzip], by simp [unzip], zip_unzip_self abs, ?_⟩
  intro as bs ha hb hlen
  exact unzip_zipWith as bs hlen

/-- Witness for C9 at `abs = [(1, true)]`. -/
theorem unzip_zip_spec_witness :
    (([(1, true)] : List (Nat × Bool)) ≠ [])
    ∧ ((unzip ([(1, true)] : List (Nat × Bool))).1.length
          = ([(1, true)] : List (Nat × Bool)).length
      ∧ (unzip ([(1, true)] : List (Nat × Bool))).2.length
          = ([(1, true)] : List (Nat × Bool)).length
      ∧ zip (unzip ([(1, true)] : List (Nat × Bool))).2
          (unzip ([(1, true)] : List (Nat × Bool))).1 = [(1, true)]
      ∧ ∀ (as : List Nat) (bs : List Bool), as ≠ [] → bs ≠ [] →
          as.length = bs.length → unzip (zip bs as) = (as, bs)) :=
  ⟨by decide, unzip_zip_spec [(1, true)] (by decide)⟩

end RNEA
